import Mathlib

/-!
# CrossPlatfromSHELL: job table, launcher statistics and line dispatch

A shallow embedding of `src/P2_Checkpoint_MB.c` (the POSIX branch of
`execute_command` and `check_background_jobs`, the command-line assembly of the
Windows branch, and the per-line part of `interactive_shell`), followed by the
properties proved about it.

Conventions of the embedding:

* a C string is the list of its characters before the terminating NUL;
* C `int` and `pid_t` values (`pid`, `job_count`, loop indices) are integers (`Int`);
  they stay far inside the range of `int` here;
* `long`, `time_t` and `suseconds_t` arithmetic (the statistics of lines 143-146) is
  64-bit two's complement: every result is reduced by `wrap_long`; division is
  `Int.tdiv`, which truncates toward zero like C's `/`;
* standard input is a list of characters; `fgets` takes what one call stores;
* the global `background_jobs` array has exactly `MAX_JOBS` slots; every access goes
  through `JobArray.read` / `JobArray.write`, which fail (`none`) when the index is
  outside `[0, MAX_JOBS)`;
* results of system calls (`fork`, `waitpid`, `gettimeofday`, `getrusage`) are
  parameters; `printf` / `perror` output is a list of `Line` values.
-/

namespace Shell

/-! ## Constants and data model (source lines 49-59) -/

/-- `#define MAX_INPUT 128` -/
def MAX_INPUT : Nat := 128

/-- `#define MAX_ARGS 32` -/
def MAX_ARGS : Nat := 32

/-- `#define MAX_JOBS 10` -/
def MAX_JOBS : Nat := 10

/-- C string: the characters before the terminating NUL. -/
abbrev CStr := List Char

/-- `typedef struct { int pid; char cmd[MAX_INPUT]; } Job;` -/
structure Job where
  pid : Int
  cmd : CStr
deriving DecidableEq, Repr

/-- `Job background_jobs[MAX_JOBS];` an array of exactly `MAX_JOBS` slots. -/
abbrev JobArray := { xs : List Job // xs.length = MAX_JOBS }

/-- Array read `background_jobs[i]`; `none` when `i` is outside `[0, MAX_JOBS)`. -/
def JobArray.read (a : JobArray) (i : Int) : Option Job :=
  if 0 ≤ i ∧ i < (MAX_JOBS : Int) then a.val[i.toNat]? else none

/-- Array write `background_jobs[i] = x`; `none` when `i` is outside `[0, MAX_JOBS)`. -/
def JobArray.write (a : JobArray) (i : Int) (x : Job) : Option JobArray :=
  if 0 ≤ i ∧ i < (MAX_JOBS : Int) then
    some ⟨a.val.set i.toNat x, by rw [List.length_set]; exact a.property⟩
  else none

/-- The two globals `background_jobs` and `job_count`. -/
structure ShellState where
  background_jobs : JobArray
  job_count : Int
deriving DecidableEq

/-- Zero-initialised globals at program start: ten zeroed slots, `job_count = 0`. -/
def ShellState.init : ShellState :=
  ⟨⟨List.replicate MAX_JOBS ⟨0, []⟩, by simp⟩, 0⟩

/-- The tracked jobs: slots `0 .. job_count - 1` of the array, in index order. -/
def ShellState.jobs (st : ShellState) : List Job :=
  st.background_jobs.val.take st.job_count.toNat

/-- One unit of output written by the program. -/
inductive Line where
  /-- `printf("[%d] %d Completed\n", slot, pid)` -/
  | completed (slot : Int) (pid : Int)
  /-- `printf("[%d] %d\n", slot, pid)` -/
  | registered (slot : Int) (pid : Int)
  /-- The statistics block of a foreground run (lines 148-153). -/
  | statistics (user : Int) (sys : Int) (elapsed : Int) (minflt : Int) (majflt : Int)
  /-- `perror(what)` -/
  | perror (what : String)
deriving DecidableEq, Repr

/-! ## check_background_jobs (source lines 166-195, POSIX branch) -/

/-- The compaction loop, lines 187-189:
`for (int j = i; j < job_count - 1; j++) background_jobs[j] = background_jobs[j + 1];` -/
def shift_jobs (a : JobArray) (job_count : Int) (j : Int) : Option JobArray :=
  if j < job_count - 1 then
    match a.read (j + 1) with
    | none => none
    | some x =>
      match a.write j x with
      | none => none
      | some a1 => shift_jobs a1 job_count (j + 1)
  else some a
termination_by (job_count - 1 - j).toNat
decreasing_by omega

/-- The outer loop of `check_background_jobs` from loop variable `i`.
`waitpid calls pid` is the value returned by the `calls`-th (zero-based)
`waitpid(pid, &status, WNOHANG)` call of this poll.  After a removal the source
executes `i--` and then the loop increment `i++`.  (The Windows branch runs the same
loop with the test "the process can be opened and its exit code is not STILL_ACTIVE"
where this branch tests `result > 0`.) -/
def check_loop (waitpid : Nat → Int → Int) (calls : Nat) (i : Int) (st : ShellState)
    (out : List Line) : Option (ShellState × List Line) :=
  if i < st.job_count then
    match st.background_jobs.read i with
    | none => none
    | some job =>
      let result := waitpid calls job.pid
      if result > 0 then
        match shift_jobs st.background_jobs st.job_count i with
        | none => none
        | some a1 =>
          check_loop waitpid (calls + 1) (i - 1 + 1) ⟨a1, st.job_count - 1⟩
            (out ++ [Line.completed (i + 1) job.pid])
      else check_loop waitpid (calls + 1) (i + 1) st out
  else some (st, out)
termination_by (st.job_count - i).toNat
decreasing_by all_goals simp_wf; all_goals omega

/-- `void check_background_jobs()`: the new globals and the lines printed, or `none`
when an array access falls outside `[0, MAX_JOBS)`. -/
def check_background_jobs (waitpid : Nat → Int → Int) (st : ShellState) :
    Option (ShellState × List Line) :=
  check_loop waitpid 0 0 st []

/-! ## execute_command (source lines 67-164, POSIX branch) -/

/-- `struct timeval` -/
structure timeval where
  tv_sec : Int
  tv_usec : Int
deriving DecidableEq, Repr

/-- The fields of `struct rusage` that the program reads. -/
structure rusage where
  ru_utime : timeval
  ru_stime : timeval
  ru_minflt : Int
  ru_majflt : Int
deriving DecidableEq, Repr

/-- `LONG_MIN` of a 64-bit `long`. -/
def LONG_MIN : Int := -9223372036854775808

/-- `LONG_MAX` of a 64-bit `long`. -/
def LONG_MAX : Int := 9223372036854775807

/-- The value a 64-bit `long` holds after an operation whose exact result is `x`:
`x` reduced modulo `2^64` into `[LONG_MIN, LONG_MAX]`. -/
def wrap_long (x : Int) : Int :=
  (x + 9223372036854775808) % 18446744073709551616 - 9223372036854775808

/-- Line 143: `long elapsed = (end.tv_sec - start.tv_sec) * 1000 +
(end.tv_usec - start.tv_usec) / 1000;` in `long` arithmetic. -/
def elapsed (start end_tv : timeval) : Int :=
  wrap_long (wrap_long (wrap_long (end_tv.tv_sec - start.tv_sec) * 1000)
    + Int.tdiv (wrap_long (end_tv.tv_usec - start.tv_usec)) 1000)

/-- Line 145: `long user = usage.ru_utime.tv_sec * 1000 + usage.ru_utime.tv_usec / 1000;`
in `long` arithmetic. -/
def user (usage : rusage) : Int :=
  wrap_long (wrap_long (usage.ru_utime.tv_sec * 1000) + Int.tdiv usage.ru_utime.tv_usec 1000)

/-- Line 146: `long sys = usage.ru_stime.tv_sec * 1000 + usage.ru_stime.tv_usec / 1000;`
in `long` arithmetic. -/
def sys (usage : rusage) : Int :=
  wrap_long (wrap_long (usage.ru_stime.tv_sec * 1000) + Int.tdiv usage.ru_stime.tv_usec 1000)

/-- Results of the system calls made during one `execute_command` call. -/
structure SysCalls where
  /-- `gettimeofday(&start, NULL)` -/
  start : timeval
  /-- Return value of `fork()` -/
  fork_result : Int
  /-- In the child: `false` when `execvp` returns (it failed), `true` when it took over. -/
  execvp_ok : Bool
  /-- `gettimeofday(&end, NULL)` -/
  end_tv : timeval
  /-- `getrusage(RUSAGE_CHILDREN, &usage)` -/
  usage : rusage

/-- How a call of `execute_command` (or a sequence of calls) ends. -/
inductive ExecOutcome where
  /-- The call returned to its caller with these globals, having printed these lines. -/
  | returned (st : ShellState) (out : List Line)
  /-- `fork` returned 0 and `execvp` succeeded: this process now runs the launched program. -/
  | child_exec
  /-- `fork` returned 0 and `execvp` failed: `perror("execvp"); exit(EXIT_FAILURE);` -/
  | child_exit (out : List Line)
  /-- `strncpy` from `args[0] == NULL` (empty argument vector). -/
  | null_arg
  /-- An access to `background_jobs` outside `[0, MAX_JOBS)`. -/
  | index_fault
deriving DecidableEq

/-- The string read back from a zero-terminated destination after
`strncpy(dest, src, n)`: the first `n` characters of `src`.  (The destinations in
this program have `n + 1` bytes and their last byte is never written, so it still
holds the zero it was initialised with.) -/
def strncpy (src : CStr) (n : Nat) : CStr := src.take n

/-- Update of the fields of slot `i` in place; `none` when `i` is outside `[0, MAX_JOBS)`. -/
def JobArray.update (a : JobArray) (i : Int) (f : Job → Job) : Option JobArray :=
  match a.read i with
  | none => none
  | some slot => a.write i (f slot)

/-- `void execute_command(char *args[], int background)`, POSIX branch.  `args` is the
content of the NULL-terminated argument vector. -/
def execute_command (args : List CStr) (background : Bool) (env : SysCalls)
    (st : ShellState) : ExecOutcome :=
  let pid := env.fork_result
  if pid < 0 then
    .returned st [Line.perror "fork"]
  else if pid = 0 then
    if env.execvp_ok then .child_exec else .child_exit [Line.perror "execvp"]
  else if !background then
    .returned st [Line.statistics (user env.usage) (sys env.usage)
      (elapsed env.start env.end_tv) env.usage.ru_minflt env.usage.ru_majflt]
  else if st.job_count < (MAX_JOBS : Int) then
    -- background_jobs[job_count].pid = pid;
    match st.background_jobs.update st.job_count (fun slot => ⟨pid, slot.cmd⟩) with
    | none => .index_fault
    | some a1 =>
      -- strncpy(background_jobs[job_count].cmd, args[0], MAX_INPUT - 1);
      match args.head? with
      | none => .null_arg
      | some arg0 =>
        match a1.update st.job_count
            (fun slot => ⟨slot.pid, strncpy arg0 (MAX_INPUT - 1)⟩) with
        | none => .index_fault
        | some a2 =>
          -- printf("[%d] %d\n", job_count + 1, pid); job_count++;
          .returned ⟨a2, st.job_count + 1⟩ [Line.registered (st.job_count + 1) pid]
  else
    .returned st []

/-- One call into the job-tracking engine. -/
inductive Op where
  /-- `execute_command(args, background)` with the given system-call results. -/
  | exec (args : List CStr) (background : Bool) (env : SysCalls)
  /-- `check_background_jobs()` with the given `waitpid` results. -/
  | check (waitpid : Nat → Int → Int)

/-- A sequence of calls, run in order from state `st`; `out` accumulates the output.
The run stops at the first call that does not return. -/
def run : List Op → ShellState → List Line → ExecOutcome
  | [], st, out => .returned st out
  | Op.exec args background env :: ops, st, out =>
    match execute_command args background env st with
    | .returned st1 o => run ops st1 (out ++ o)
    | other => other
  | Op.check waitpid :: ops, st, out =>
    match check_background_jobs waitpid st with
    | none => .index_fault
    | some (st1, o) => run ops st1 (out ++ o)

/-- Successive `check_background_jobs()` calls with no other call in between. -/
def poll_many : List (Nat → Int → Int) → ShellState → Option (ShellState × List Line)
  | [], st => some (st, [])
  | waitpid :: rest, st =>
    match check_background_jobs waitpid st with
    | none => none
    | some (st1, o) =>
      match poll_many rest st1 with
      | none => none
      | some (st2, o2) => some (st2, o ++ o2)

/-! ## Line handling in interactive_shell (source lines 208-266) -/

/-- One `strtok(_, " ")` step on the unscanned text `s`: skip leading spaces; at the
end of the string return `none` (NULL); otherwise return the token and the text
that follows the delimiter which ended it. -/
def strtok (s : CStr) : Option (CStr × CStr) :=
  let s1 := s.dropWhile (fun c => c == ' ')
  if s1 = [] then none
  else some (s1.takeWhile (fun c => c != ' '), (s1.dropWhile (fun c => c != ' ')).drop 1)

/-- The tokenising loop, lines 217-221:
`while (token && arg_count < MAX_ARGS - 1) { args[arg_count++] = token; token = strtok(NULL, " "); }`.
`room` is `MAX_ARGS - 1 - arg_count`, the number of further tokens the loop
condition admits; `token` is the pending `strtok` result.  Returns the tokens stored. -/
def tokenize_loop : Nat → Option (CStr × CStr) → List CStr
  | 0, _ => []
  | _ + 1, none => []
  | room + 1, some (token, rest) => token :: tokenize_loop room (strtok rest)

/-- What `interactive_shell` does with one line. -/
inductive Action where
  /-- `fgets` returned NULL: `printf("\n"); break;` -/
  | eof
  /-- `continue` (empty line or no token) -/
  | skip
  /-- The `exit` built-in -/
  | exit
  /-- The `cd` built-in with `args[1]` (`none` for NULL) -/
  | cd (dir : Option CStr)
  /-- The `set prompt = <p>` built-in; `p` is the new prompt -/
  | set_prompt (p : CStr)
  /-- The `jobs` built-in -/
  | jobs
  /-- `execute_command(args, background)` -/
  | execute (args : List CStr) (background : Bool)
deriving DecidableEq

/-- The characters of `s` up to and including its first newline (all of `s` when it
has none). -/
def take_line : List Char → List Char
  | [] => []
  | c :: cs => if c = '\n' then [c] else c :: take_line cs

/-- Line 208, `fgets(input, MAX_INPUT, stdin)`, where `stream` is what standard input
still holds: `none` (NULL) at end of input; otherwise the call stores the characters up
to and including the first newline, but at most `MAX_INPUT - 1` of them, and the result
is the string the buffer then holds, which ends before the first NUL stored. -/
def fgets (stream : List Char) : Option CStr :=
  if stream = [] then none
  else some ((take_line (stream.take (MAX_INPUT - 1))).takeWhile (fun c => c != Char.ofNat 0))

/-- One turn of the `while (1)` loop of `interactive_shell` from the `fgets` call of
line 208 on, where `stream` is what standard input still holds. -/
def interactive_shell_line (stream : List Char) : Action :=
  match fgets stream with
  | none => .eof
  | some input =>
    -- input[strcspn(input, "\n")] = '\0';
    let input := input.takeWhile (fun c => c != '\n')
    if input.length = 0 then .skip
    else
      let args := tokenize_loop (MAX_ARGS - 1) (strtok input)
      let arg_count := args.length
      if arg_count = 0 then .skip
      else if args[0]? = some "exit".toList then .exit
      else if args[0]? = some "cd".toList then .cd args[1]?
      else if args[0]? = some "set".toList ∧ arg_count ≥ 4 ∧
          args[1]? = some "prompt".toList ∧ args[2]? = some "=".toList then
        .set_prompt (strncpy (args.getD 3 []) (32 - 1))
      else if args[0]? = some "jobs".toList then .jobs
      else
        let background : Bool := arg_count > 1 ∧ args[arg_count - 1]? = some "&".toList
        if background then
          -- args[arg_count - 1] = NULL;
          .execute (args.take (arg_count - 1)) true
        else .execute args false

/-! ## Command-line assembly of the Windows branch (source lines 75-83) -/

/-- `strcat(dest, src)` into a buffer of `cap` bytes: `none` when the result with its
terminator does not fit (a write past the end of the buffer). -/
def strcat (cap : Nat) (dest src : CStr) : Option CStr :=
  if dest.length + src.length + 1 ≤ cap then some (dest ++ src) else none

/-- Lines 75-79: `char cmdline[MAX_INPUT] = ""; for (i = 0; args[i] != NULL; i++)
{ strcat(cmdline, args[i]); strcat(cmdline, " "); }` continued from `cmdline`. -/
def win_cmdline_loop : List CStr → CStr → Option CStr
  | [], cmdline => some cmdline
  | arg :: rest, cmdline =>
    match strcat MAX_INPUT cmdline arg with
    | none => none
    | some c1 =>
      match strcat MAX_INPUT c1 [' '] with
      | none => none
      | some c2 => win_cmdline_loop rest c2

/-- The command line assembled in `cmdline`, or `none` on a buffer overrun. -/
def win_cmdline (args : List CStr) : Option CStr := win_cmdline_loop args []

/-- Lines 82-83: `snprintf(full_command, sizeof(full_command), "cmd.exe /c %s", cmdline)`
with `char full_command[MAX_INPUT + 20]`: output is cut to the buffer size. -/
def win_full_command (cmdline : CStr) : CStr :=
  ("cmd.exe /c ".toList ++ cmdline).take (MAX_INPUT + 20 - 1)

/-! ## Specification-side definitions -/

/-- Jobs of `js` that stay in the table when the poll's `waitpid` calls are numbered
from `c`: those whose call did not return a positive value. -/
def survivors (waitpid : Nat → Int → Int) : Nat → List Job → List Job
  | _, [] => []
  | c, j :: js =>
    if waitpid c j.pid > 0 then survivors waitpid (c + 1) js
    else j :: survivors waitpid (c + 1) js

/-- Completed lines for `js` when the first job of `js` currently sits in one-based
slot `slot` and the poll's `waitpid` calls are numbered from `c`. -/
def reports (waitpid : Nat → Int → Int) : Nat → Int → List Job → List Line
  | _, _, [] => []
  | c, slot, j :: js =>
    if waitpid c j.pid > 0 then Line.completed slot j.pid :: reports waitpid (c + 1) slot js
    else reports waitpid (c + 1) (slot + 1) js

/-- Number of jobs at positions before `k` (zero-based) of the table `js` that the
poll reaps: those whose `waitpid` call returns a positive value. -/
def reaped_before (waitpid : Nat → Int → Int) (js : List Job) (k : Nat) : Nat :=
  ((js.take k).enum.filter (fun p => decide (waitpid p.1 p.2.pid > 0))).length

/-- The Completed lines the claim describes for a poll of the table `js`: one line per
reaped job, in table order, whose slot is the job's one-based position at the start
of the poll minus the number of jobs reaped at earlier positions. -/
def expected_completed (waitpid : Nat → Int → Int) (js : List Job) : List Line :=
  js.enum.filterMap (fun p =>
    if waitpid p.1 p.2.pid > 0 then
      some (Line.completed ((p.1 : Int) + 1 - (reaped_before waitpid js p.1 : Int)) p.2.pid)
    else none)

/-- Microseconds since the epoch denoted by a `struct timeval`. -/
def timeval.usec_total (t : timeval) : Int := t.tv_sec * 1000000 + t.tv_usec

/-- The microseconds field lies in `[0, 1000000)`. -/
def timeval.normalized (t : timeval) : Prop := 0 ≤ t.tv_usec ∧ t.tv_usec < 1000000

instance (t : timeval) : Decidable t.normalized := by
  unfold timeval.normalized; infer_instance

/-- The space-separated tokens of a line: the non-empty pieces between spaces. -/
def line_tokens (line : CStr) : List CStr :=
  (line.splitOn ' ').filter (fun t => !t.isEmpty)

/-- The line that a buffer filled by `fgets` holds: its text before the newline. -/
def line_of (input : CStr) : CStr := input.takeWhile (fun c => c != '\n')

/-- The tokens form a built-in command: `exit`, `cd`, `jobs`, or `set prompt = ...`
with at least four tokens. -/
def is_builtin (toks : List CStr) : Bool :=
  toks.head? == some "exit".toList || toks.head? == some "cd".toList
    || toks.head? == some "jobs".toList
    || (toks.head? == some "set".toList && decide (4 ≤ toks.length)
        && toks[1]? == some "prompt".toList && toks[2]? == some "=".toList)

/-- The exact value `x` is representable in a `long`. -/
def fits_long (x : Int) : Prop := LONG_MIN ≤ x ∧ x ≤ LONG_MAX

instance (x : Int) : Decidable (fits_long x) := by
  unfold fits_long; infer_instance

/-- A call made by the shell process itself (`fork` did not return 0) with a
non-empty argument vector; polls always qualify. -/
def Op.in_parent : Op → Bool
  | Op.exec args _ env => decide (env.fork_result ≠ 0) && !args.isEmpty
  | Op.check _ => true

/-- Characters that the Windows loop appends for `args`: each argument and one space. -/
def cmdline_cost (args : List CStr) : Nat := (args.map (fun a => a.length + 1)).sum

/-! ## Concrete data used in worked examples -/

/-- Job `A` of the worked examples. -/
def jobA : Job := ⟨100, "sleep".toList⟩

/-- Job `B` of the worked examples. -/
def jobB : Job := ⟨200, "make".toList⟩

/-- Job `C` of the worked examples. -/
def jobC : Job := ⟨300, "cc".toList⟩

/-- The table `[A, B, C]`: three tracked jobs, seven unused slots. -/
def tableABC : ShellState :=
  ⟨⟨[jobA, jobB, jobC] ++ List.replicate 7 ⟨0, []⟩, by decide⟩, 3⟩

/-- A table at capacity: ten tracked jobs with process ids 1 to 10. -/
def tableFull : ShellState :=
  ⟨⟨(List.range 10).map (fun k => ⟨(k : Int) + 1, "sleep".toList⟩), by decide⟩, 10⟩

/-- System-call results of a launch whose `fork` returns `pid`; the clocks and the
usage record are zero. -/
def env_bg (pid : Int) : SysCalls := ⟨⟨0, 0⟩, pid, false, ⟨0, 0⟩, ⟨⟨0, 0⟩, ⟨0, 0⟩, 0, 0⟩⟩

/-- System-call results of a foreground run that starts at 10.9 s, ends at 11.1 s and
used 12 ms of user and 3 ms of system time. -/
def env_fg : SysCalls :=
  ⟨⟨10, 900000⟩, 4242, false, ⟨11, 100000⟩, ⟨⟨0, 12000⟩, ⟨0, 3000⟩, 7, 0⟩⟩

/-- The line of 31 tokens `a` followed by the token `&` (32 tokens in all). -/
def line31a_amp : CStr := (List.replicate 31 "a ".toList).flatten ++ "&".toList

/-- The line `sleep xxx...x &` with 125 characters `x`: 133 characters, three tokens. -/
def line_long_amp : CStr := "sleep ".toList ++ List.replicate 125 'x' ++ " &".toList

/-- A foreground run whose clock readings are 9223372036854776 s apart and whose usage
record shows that many seconds of user and of system time. -/
def env_huge : SysCalls :=
  ⟨⟨0, 0⟩, 4242, false, ⟨9223372036854776, 0⟩,
    ⟨⟨9223372036854776, 0⟩, ⟨9223372036854776, 0⟩, 0, 0⟩⟩

/-- Eleven background launches with process ids 1 to 11, then one poll in which every
status check reports termination. -/
def ops_overfill : List Op :=
  (List.range 11).map (fun k => Op.exec ["sleep".toList, "9".toList] true (env_bg ((k : Int) + 1)))
    ++ [Op.check (fun _ _ => 1)]

/-! ## Array accesses and the compaction loop -/

/-- A read at an index below `MAX_JOBS` succeeds and returns the slot's content. -/
theorem JobArray.read_of_lt (a : JobArray) (k : Nat) (hk : k < MAX_JOBS) :
    ∃ x, a.read (k : Int) = some x ∧ a.val[k]? = some x := by
  have hlen : k < a.val.length := by rw [a.property]; exact hk
  refine ⟨a.val[k], ?_, ?_⟩
  · unfold JobArray.read
    have h1 : (0 : Int) ≤ (k : Int) ∧ (k : Int) < (MAX_JOBS : Int) := by
      constructor <;> omega
    rw [if_pos h1]
    simp [List.getElem?_eq_getElem hlen]
  · exact List.getElem?_eq_getElem hlen

/-- A write at an index below `MAX_JOBS` succeeds and replaces that slot only. -/
theorem JobArray.write_of_lt (a : JobArray) (k : Nat) (hk : k < MAX_JOBS) (x : Job) :
    ∃ a1, a.write (k : Int) x = some a1 ∧ a1.val = a.val.set k x := by
  unfold JobArray.write
  have h1 : (0 : Int) ≤ (k : Int) ∧ (k : Int) < (MAX_JOBS : Int) := by
    constructor <;> omega
  rw [if_pos h1]
  exact ⟨_, rfl, by simp⟩

/-- A field update at an index below `MAX_JOBS` succeeds and rewrites that slot only. -/
theorem JobArray.update_of_lt (a : JobArray) (k : Nat) (hk : k < MAX_JOBS) (f : Job → Job) :
    ∃ x a1, a.val[k]? = some x ∧ a.update (k : Int) f = some a1 ∧ a1.val = a.val.set k (f x) := by
  obtain ⟨x, hx, hx2⟩ := a.read_of_lt k hk
  obtain ⟨a1, ha1, ha1v⟩ := a.write_of_lt k hk (f x)
  refine ⟨x, a1, hx2, ?_, ha1v⟩
  unfold JobArray.update
  rw [hx]
  exact ha1

/-- The compaction loop succeeds and moves slots `j+1 .. n-1` down by one. -/
theorem shift_jobs_spec (n : Nat) (hn : n ≤ MAX_JOBS) :
    ∀ (m : Nat) (a : JobArray) (j : Nat), n - 1 - j = m →
      ∃ a1, shift_jobs a (n : Int) (j : Int) = some a1 ∧
        ∀ k : Nat, a1.val[k]? = if j ≤ k ∧ k + 1 < n then a.val[k + 1]? else a.val[k]? := by
  intro m
  induction m with
  | zero =>
    intro a j hm
    refine ⟨a, ?_, ?_⟩
    · rw [shift_jobs]
      have : ¬ ((j : Int) < (n : Int) - 1) := by omega
      rw [if_neg this]
    · intro k
      have : ¬ (j ≤ k ∧ k + 1 < n) := by omega
      rw [if_neg this]
  | succ m ih =>
    intro a j hm
    have hj : (j : Int) < (n : Int) - 1 := by omega
    obtain ⟨x, hx, hx2⟩ := a.read_of_lt (j + 1) (by omega)
    obtain ⟨a1, ha1, ha1v⟩ := a.write_of_lt j (by omega) x
    obtain ⟨a2, ha2, ha2v⟩ := ih a1 (j + 1) (by omega)
    refine ⟨a2, ?_, ?_⟩
    · rw [shift_jobs, if_pos hj]
      have e1 : ((j : Int) + 1) = ((j + 1 : Nat) : Int) := by push_cast; rfl
      rw [e1, hx]
      simp only [ha1]
      rw [← e1] at ha2 ⊢
      exact ha2
    · intro k
      rw [ha2v k, ha1v]
      have hlen : a.val.length = MAX_JOBS := a.property
      by_cases h1 : j + 1 ≤ k ∧ k + 1 < n
      · rw [if_pos h1, if_pos (by omega), List.getElem?_set]
        rw [if_neg (by omega)]
      · rw [if_neg h1, List.getElem?_set]
        by_cases h2 : j = k
        · subst h2
          rw [if_pos rfl, if_pos (by omega), if_pos (by omega)]
          exact hx2.symm
        · rw [if_neg h2, if_neg (by omega)]

/-! ## The poll loop -/

/-- When the tracked jobs are `pre ++ x :: rest`, slot `pre.length` of the array holds `x`. -/
theorem jobs_getElem? (st : ShellState) (pre rest : List Job) (x : Job)
    (hjobs : st.jobs = pre ++ x :: rest) :
    st.background_jobs.val[pre.length]? = some x := by
  have h1 : st.jobs[pre.length]? = some x := by
    rw [hjobs, List.getElem?_append_right (Nat.le_refl _)]; simp
  unfold ShellState.jobs at h1
  rw [List.getElem?_take] at h1
  split at h1
  · exact h1
  · cases h1

/-- After the compaction loop has removed the job at index `pre.length` and `job_count` is
decremented, the tracked jobs are `pre ++ rest`. -/
theorem jobs_after_shift (st : ShellState) (pre rest : List Job) (x : Job) (a1 : JobArray)
    (hjobs : st.jobs = pre ++ x :: rest)
    (hcount : st.job_count = ((pre.length + (rest.length + 1) : Nat) : Int))
    (ha1 : ∀ k : Nat, a1.val[k]? =
      if pre.length ≤ k ∧ k + 1 < pre.length + (rest.length + 1)
      then st.background_jobs.val[k + 1]? else st.background_jobs.val[k]?) :
    ShellState.jobs ⟨a1, st.job_count - 1⟩ = pre ++ rest := by
  have hget : ∀ k : Nat, k < pre.length + (rest.length + 1) →
      st.background_jobs.val[k]? = (pre ++ x :: rest)[k]? := by
    intro k hk
    rw [← hjobs]
    unfold ShellState.jobs
    rw [List.getElem?_take, if_pos]
    rw [hcount]; omega
  apply List.ext_getElem?
  intro k
  unfold ShellState.jobs
  simp only [hcount]
  have e : (((pre.length + (rest.length + 1) : Nat) : Int) - 1).toNat = pre.length + rest.length := by
    omega
  rw [e, List.getElem?_take]
  by_cases hk : k < pre.length + rest.length
  · rw [if_pos hk, ha1 k]
    by_cases hk2 : pre.length ≤ k
    · rw [if_pos ⟨hk2, by omega⟩, hget (k + 1) (by omega)]
      rw [List.getElem?_append_right (by omega), List.getElem?_append_right hk2]
      have : k + 1 - pre.length = (k - pre.length) + 1 := by omega
      rw [this, List.getElem?_cons_succ]
    · rw [if_neg (by omega), hget k (by omega)]
      rw [List.getElem?_append_left (by omega), List.getElem?_append_left (by omega)]
  · rw [if_neg hk]
    symm
    rw [List.getElem?_eq_none_iff]
    simp; omega

/-- The poll loop, started at index `pre.length` with `rest` still to visit, succeeds,
prints `reports` for `rest` and leaves `pre` followed by the survivors of `rest`. -/
theorem check_loop_spec (w : Nat → Int → Int) :
    ∀ (rest pre : List Job) (st : ShellState) (c : Nat) (out : List Line),
      st.jobs = pre ++ rest →
      st.job_count = ((pre.length + rest.length : Nat) : Int) →
      pre.length + rest.length ≤ MAX_JOBS →
      ∃ st1, check_loop w c (pre.length : Int) st out
          = some (st1, out ++ reports w c ((pre.length : Int) + 1) rest)
        ∧ st1.jobs = pre ++ survivors w c rest
        ∧ st1.job_count = ((pre.length + (survivors w c rest).length : Nat) : Int) := by
  intro rest
  induction rest with
  | nil =>
    intro pre st c out hjobs hcount _
    refine ⟨st, ?_, ?_, ?_⟩
    · rw [check_loop, if_neg (by rw [hcount]; simp)]
      simp [reports]
    · simpa [survivors] using hjobs
    · simpa [survivors] using hcount
  | cons x rest ih =>
    intro pre st c out hjobs hcount hle
    simp only [List.length_cons] at hcount hle
    have hlt : (pre.length : Int) < st.job_count := by rw [hcount]; omega
    obtain ⟨y, hy, hy2⟩ := st.background_jobs.read_of_lt pre.length (by omega)
    have hx := jobs_getElem? st pre rest x hjobs
    rw [hx] at hy2
    cases hy2
    rw [check_loop, if_pos hlt, hy]
    simp only []
    by_cases hw : w c x.pid > 0
    · rw [if_pos hw]
      obtain ⟨a1, hs, ha1⟩ := shift_jobs_spec (pre.length + (rest.length + 1)) hle _
        st.background_jobs pre.length rfl
      rw [hcount, hs]
      simp only []
      have hj := jobs_after_shift st pre rest x a1 hjobs hcount ha1
      rw [hcount] at hj
      obtain ⟨st1, h1, h2, h3⟩ := ih pre ⟨a1, ((pre.length + (rest.length + 1) : Nat) : Int) - 1⟩
        (c + 1) (out ++ [Line.completed ((pre.length : Int) + 1) x.pid]) hj
        (by simp only []; omega) (by omega)
      refine ⟨st1, ?_, ?_, ?_⟩
      · rw [Int.sub_add_cancel, h1]
        simp [reports, hw]
      · simp [survivors, hw, h2]
      · simp [survivors, hw, h3]
    · rw [if_neg hw]
      obtain ⟨st1, h1, h2, h3⟩ := ih (pre ++ [x]) st (c + 1) out (by simpa using hjobs)
        (by rw [hcount]; simp; omega) (by simp; omega)
      refine ⟨st1, ?_, ?_, ?_⟩
      · have e : (((pre ++ [x]).length : Nat) : Int) = (pre.length : Int) + 1 := by simp
        rw [e] at h1
        rw [h1]
        simp [reports, hw]
      · simp [survivors, hw, h2]
      · simp [survivors, hw, h3]; omega

/-- With `0 <= job_count <= MAX_JOBS` the number of tracked jobs is `job_count`. -/
theorem jobs_length (st : ShellState) (h0 : 0 ≤ st.job_count) (h1 : st.job_count ≤ (MAX_JOBS : Int)) :
    (st.jobs.length : Int) = st.job_count := by
  unfold ShellState.jobs
  rw [List.length_take, st.background_jobs.property]
  omega

/-- One poll of a table with `0 <= job_count <= MAX_JOBS` succeeds, prints `reports` and leaves
`survivors`. -/
theorem check_background_jobs_spec (w : Nat → Int → Int) (st : ShellState)
    (h0 : 0 ≤ st.job_count) (h1 : st.job_count ≤ (MAX_JOBS : Int)) :
    ∃ st1, check_background_jobs w st = some (st1, reports w 0 1 st.jobs)
      ∧ st1.jobs = survivors w 0 st.jobs
      ∧ st1.job_count = ((survivors w 0 st.jobs).length : Int) := by
  have hl := jobs_length st h0 h1
  obtain ⟨st1, h, hj, hc⟩ := check_loop_spec w st.jobs [] st 0 [] (by simp)
    (by simp; omega) (by simp; omega)
  refine ⟨st1, ?_, by simpa using hj, by simpa using hc⟩
  unfold check_background_jobs
  simpa using h

/-- The survivors are the jobs, numbered from `c` in table order, whose `waitpid` call did not
return a positive value. -/
theorem survivors_eq_filter (w : Nat → Int → Int) :
    ∀ (js : List Job) (c : Nat), survivors w c js =
      ((js.enumFrom c).filter (fun p => decide (¬ w p.1 p.2.pid > 0))).map Prod.snd := by
  intro js
  induction js with
  | nil => intro c; simp [survivors]
  | cons x js ih =>
    intro c
    by_cases hw : w c x.pid > 0
    · simp [survivors, List.enumFrom_cons, hw, ih, List.filter_cons]
    · have hw2 : w c x.pid ≤ 0 := by omega
      simp [survivors, List.enumFrom_cons, hw, hw2, ih, List.filter_cons]

/-- The number of jobs reaped before position `pre.length` only depends on `pre`. -/
theorem reaped_before_append (w : Nat → Int → Int) (pre rest : List Job) :
    reaped_before w (pre ++ rest) pre.length
      = (pre.enum.filter (fun p => decide (w p.1 p.2.pid > 0))).length := by
  unfold reaped_before
  simp

/-- The lines of `reports` carry the slot computed from the position at the start of the poll
and the number of jobs reaped before it. -/
theorem reports_eq (w : Nat → Int → Int) :
    ∀ (rest pre : List Job),
      reports w pre.length ((pre.length : Int) + 1
          - ((pre.enum.filter (fun p => decide (w p.1 p.2.pid > 0))).length : Int)) rest
      = (rest.enumFrom pre.length).filterMap (fun p =>
          if w p.1 p.2.pid > 0 then
            some (Line.completed ((p.1 : Int) + 1
              - (reaped_before w (pre ++ rest) p.1 : Int)) p.2.pid)
          else none) := by
  intro rest
  induction rest with
  | nil => intro pre; simp [reports]
  | cons x rest ih =>
    intro pre
    have ih1 := ih (pre ++ [x])
    have e1 : (pre ++ [x]).length = pre.length + 1 := by simp
    have e2 : (pre ++ [x]) ++ rest = pre ++ x :: rest := by simp
    rw [e1, e2] at ih1
    rw [List.enumFrom_cons, List.filterMap_cons]
    have e3 : (pre ++ [x]).enum = pre.enum ++ [(pre.length, x)] := by
      simp [List.enum, List.enumFrom_append]
    by_cases hw : w pre.length x.pid > 0
    · simp only [hw, if_true, reports]
      rw [reaped_before_append]
      congr 1
      rw [← ih1, e3, List.filter_append]
      simp [List.filter_cons, hw]
    · simp only [hw, if_false, reports]
      rw [← ih1, e3, List.filter_append]
      simp [List.filter_cons, hw]
      congr 1
      omega

/-- Every surviving job was in the table. -/
theorem survivors_subset (w : Nat → Int → Int) :
    ∀ (js : List Job) (c : Nat) (j : Job), j ∈ survivors w c js → j ∈ js := by
  intro js
  induction js with
  | nil => intro c j h; simp [survivors] at h
  | cons x js ih =>
    intro c j h
    unfold survivors at h
    split at h
    · exact List.mem_cons_of_mem _ (ih _ _ h)
    · rcases List.mem_cons.1 h with h | h
      · rw [h]; exact List.mem_cons_self _ _
      · exact List.mem_cons_of_mem _ (ih _ _ h)

/-- Every printed line is a Completed line for a job of the table. -/
theorem reports_pid_mem (w : Nat → Int → Int) :
    ∀ (js : List Job) (c : Nat) (slot : Int) (l : Line), l ∈ reports w c slot js →
      ∃ s, ∃ j ∈ js, l = Line.completed s j.pid := by
  intro js
  induction js with
  | nil => intro c slot l h; simp [reports] at h
  | cons x js ih =>
    intro c slot l h
    unfold reports at h
    split at h
    · rcases List.mem_cons.1 h with h | h
      · exact ⟨slot, x, List.mem_cons_self _ _, h⟩
      · obtain ⟨s, j, hj, e⟩ := ih _ _ _ h
        exact ⟨s, j, List.mem_cons_of_mem _ hj, e⟩
    · obtain ⟨s, j, hj, e⟩ := ih _ _ _ h
      exact ⟨s, j, List.mem_cons_of_mem _ hj, e⟩

/-- Each job of the table either survives or produces exactly one Completed line. -/
theorem survivors_reports_length (w : Nat → Int → Int) :
    ∀ (js : List Job) (c : Nat) (slot : Int),
      (survivors w c js).length + (reports w c slot js).length = js.length := by
  intro js
  induction js with
  | nil => intro c slot; simp [survivors, reports]
  | cons x js ih =>
    intro c slot
    unfold survivors reports
    split
    · have := ih (c + 1) slot
      simp only [List.length_cons]; omega
    · have := ih (c + 1) (slot + 1)
      simp only [List.length_cons]; omega

/-- With pairwise distinct process ids, a reported process id belongs to no surviving job. -/
theorem reports_not_survivor (w : Nat → Int → Int) :
    ∀ (js : List Job) (c : Nat) (slot : Int) (s p : Int),
      (js.map Job.pid).Nodup → Line.completed s p ∈ reports w c slot js →
      p ∉ (survivors w c js).map Job.pid := by
  intro js
  induction js with
  | nil => intro c slot s p _ h; simp [reports] at h
  | cons x js ih =>
    intro c slot s p hnd h
    rw [List.map_cons, List.nodup_cons] at hnd
    obtain ⟨hx, hnd⟩ := hnd
    have hsub : ∀ q, q ∈ (survivors w (c + 1) js).map Job.pid → q ∈ js.map Job.pid := by
      intro q hq
      obtain ⟨j, hj, e⟩ := List.mem_map.1 hq
      exact List.mem_map.2 ⟨j, survivors_subset w _ _ _ hj, e⟩
    unfold reports at h
    unfold survivors
    split at h
    · rename_i hw
      rw [if_pos hw]
      rcases List.mem_cons.1 h with h | h
      · cases h
        intro hq
        exact hx (hsub _ hq)
      · exact ih _ _ _ _ hnd h
    · rename_i hw
      rw [if_neg hw, List.map_cons, List.mem_cons]
      intro hq
      rcases hq with hq | hq
      · obtain ⟨s1, j, hj, e⟩ := reports_pid_mem w _ _ _ _ h
        cases e
        apply hx
        rw [← hq]
        exact List.mem_map.2 ⟨j, hj, rfl⟩
      · exact ih _ _ _ _ hnd h hq

/-- Any number of successive polls succeeds and only reports jobs that were tracked before the
first of them. -/
theorem poll_many_spec :
    ∀ (ws : List (Nat → Int → Int)) (st : ShellState),
      0 ≤ st.job_count → st.job_count ≤ (MAX_JOBS : Int) →
      ∃ st2 out2, poll_many ws st = some (st2, out2) ∧
        ∀ l ∈ out2, ∃ s, ∃ j ∈ st.jobs, l = Line.completed s j.pid := by
  intro ws
  induction ws with
  | nil => intro st _ _; exact ⟨st, [], rfl, by simp⟩
  | cons w ws ih =>
    intro st h0 h1
    obtain ⟨st1, h, hj, hc⟩ := check_background_jobs_spec w st h0 h1
    have hlen := survivors_reports_length w st.jobs 0 1
    have hl := jobs_length st h0 h1
    obtain ⟨st2, out2, h2, hout⟩ := ih st1 (by omega) (by omega)
    refine ⟨st2, reports w 0 1 st.jobs ++ out2, ?_, ?_⟩
    · simp [poll_many, h, h2]
    · intro l hl
      rcases List.mem_append.1 hl with hl | hl
      · exact reports_pid_mem w _ _ _ _ hl
      · obtain ⟨s, j, hj2, e⟩ := hout l hl
        rw [hj] at hj2
        exact ⟨s, j, survivors_subset w _ _ _ hj2, e⟩

/-! ## The launcher -/

/-- Registration below capacity: the effect of the background branch of
`execute_command` on the globals and the output. -/
theorem execute_command_register (arg0 : CStr) (rest : List CStr) (env : SysCalls)
    (st : ShellState) (n : Nat) (hn : st.job_count = (n : Int)) (hlt : n < MAX_JOBS)
    (hpid : 0 < env.fork_result) :
    ∃ a2 : JobArray, execute_command (arg0 :: rest) true env st
        = .returned ⟨a2, (n : Int) + 1⟩ [Line.registered ((n : Int) + 1) env.fork_result]
      ∧ a2.val = st.background_jobs.val.set n ⟨env.fork_result, strncpy arg0 (MAX_INPUT - 1)⟩ := by
  obtain ⟨x, a1, hx, h1, h1v⟩ := st.background_jobs.update_of_lt n hlt
    (fun slot => ⟨env.fork_result, slot.cmd⟩)
  obtain ⟨y, a2, hy, h2, h2v⟩ := a1.update_of_lt n hlt
    (fun slot => ⟨slot.pid, strncpy arg0 (MAX_INPUT - 1)⟩)
  refine ⟨a2, ?_, ?_⟩
  · unfold execute_command
    simp only []
    rw [if_neg (by omega), if_neg (by omega)]
    simp only [Bool.not_true, Bool.false_eq_true, if_false]
    rw [if_pos (by rw [hn]; exact_mod_cast hlt), hn, h1]
    simp only [List.head?_cons, h2]
  · rw [h2v, h1v, List.set_set]
    have hlen : n < st.background_jobs.val.length := by
      rw [st.background_jobs.property]; exact hlt
    rw [h1v, List.getElem?_set, if_pos rfl, if_pos hlen] at hy
    cases hy
    rfl

/-- Registration below capacity for any non-empty argument vector: the line printed, the new
`job_count`, the entry stored (its label is the first `MAX_INPUT - 1` characters of `argv[0]`),
and the slots left unchanged. -/
theorem execute_command_register_frame (arg0 : CStr) (rest : List CStr)
    (env : SysCalls) (st : ShellState) (n : Nat)
    (hn : st.job_count = (n : Int)) (hlt : n < MAX_JOBS) (hpid : 0 < env.fork_result) :
    ∃ st1, execute_command (arg0 :: rest) true env st
        = .returned st1 [Line.registered ((n : Int) + 1) env.fork_result]
      ∧ st1.job_count = (n : Int) + 1
      ∧ st1.background_jobs.val[n]? = some ⟨env.fork_result, arg0.take (MAX_INPUT - 1)⟩
      ∧ (∀ k : Nat, k ≠ n → st1.background_jobs.val[k]? = st.background_jobs.val[k]?)
      ∧ st1.jobs = st.jobs ++ [⟨env.fork_result, arg0.take (MAX_INPUT - 1)⟩]
      ∧ (arg0.length ≤ MAX_INPUT - 1 →
          st1.background_jobs.val[n]? = some ⟨env.fork_result, arg0⟩) := by
  obtain ⟨a2, e, hv⟩ := execute_command_register arg0 rest env st n hn hlt hpid
  have hlen : n < st.background_jobs.val.length := by
    rw [st.background_jobs.property]; exact hlt
  have hget : a2.val[n]? = some ⟨env.fork_result, arg0.take (MAX_INPUT - 1)⟩ := by
    rw [hv, List.getElem?_set, if_pos rfl, if_pos hlen]; rfl
  refine ⟨⟨a2, (n : Int) + 1⟩, e, rfl, hget, ?_, ?_, ?_⟩
  · intro k hk
    simp only [hv]
    rw [List.getElem?_set, if_neg (Ne.symm hk)]
  · apply List.ext_getElem?
    intro k
    unfold ShellState.jobs
    simp only [hn]
    have e1 : ((n : Int) + 1).toNat = n + 1 := by omega
    have e2 : ((n : Int)).toNat = n := by omega
    rw [e1, e2, List.getElem?_take, List.getElem?_append, List.length_take,
      Nat.min_eq_left (Nat.le_of_lt hlen), List.getElem?_take]
    by_cases h1 : k < n
    · rw [if_pos (by omega), if_pos h1, if_pos h1, hv, List.getElem?_set, if_neg (by omega)]
    · by_cases h2 : k = n
      · subst h2
        rw [if_pos (by omega), if_neg h1, hget]
        simp
      · rw [if_neg (by omega), if_neg h1]
        have : k - n = (k - n - 1) + 1 := by omega
        rw [this]
        simp
  · intro hshort
    simp only []
    rw [hget, List.take_of_length_le hshort]

/-- From a state with `0 <= job_count <= MAX_JOBS`, `execute_command` makes no out-of-range
array access, keeps the bound when it returns, and returns whenever `fork` did not return 0 and
the argument vector is non-empty. -/
theorem execute_command_inv (args : List CStr) (background : Bool) (env : SysCalls)
    (st : ShellState) (h0 : 0 ≤ st.job_count) (h1 : st.job_count ≤ (MAX_JOBS : Int)) :
    execute_command args background env st ≠ .index_fault
    ∧ (∀ st1 out, execute_command args background env st = .returned st1 out →
        0 ≤ st1.job_count ∧ st1.job_count ≤ (MAX_JOBS : Int))
    ∧ (env.fork_result ≠ 0 → args ≠ [] →
        ∃ st1 out, execute_command args background env st = .returned st1 out) := by
  by_cases hneg : env.fork_result < 0
  · have e : execute_command args background env st = .returned st [Line.perror "fork"] := by
      unfold execute_command; simp only []; rw [if_pos hneg]
    rw [e]
    refine ⟨by simp, ?_, fun _ _ => ⟨_, _, rfl⟩⟩
    intro st1 out h; cases h; exact ⟨h0, h1⟩
  by_cases hz : env.fork_result = 0
  · have e : execute_command args background env st
        = if env.execvp_ok then .child_exec else .child_exit [Line.perror "execvp"] := by
      unfold execute_command; simp only []; rw [if_neg hneg, if_pos hz]
    rw [e]
    refine ⟨by split <;> simp, ?_, fun h => absurd hz h⟩
    intro st1 out h; split at h <;> cases h
  cases background with
  | false =>
    have e : execute_command args false env st = .returned st [Line.statistics (user env.usage)
        (sys env.usage) (elapsed env.start env.end_tv) env.usage.ru_minflt env.usage.ru_majflt] := by
      unfold execute_command; simp only []; rw [if_neg hneg, if_neg hz]; simp
    rw [e]
    refine ⟨by simp, ?_, fun _ _ => ⟨_, _, rfl⟩⟩
    intro st1 out h; cases h; exact ⟨h0, h1⟩
  | true =>
    by_cases hfull : st.job_count < (MAX_JOBS : Int)
    · obtain ⟨n, hn⟩ := Int.eq_ofNat_of_zero_le h0
      have hlt : n < MAX_JOBS := by omega
      cases args with
      | nil =>
        obtain ⟨x, a1, hx, hu, _⟩ := st.background_jobs.update_of_lt n hlt
          (fun slot => ⟨env.fork_result, slot.cmd⟩)
        have e : execute_command [] true env st = .null_arg := by
          unfold execute_command; simp only []
          rw [if_neg hneg, if_neg hz]
          simp only [Bool.not_true, Bool.false_eq_true, if_false]
          rw [if_pos hfull, hn, hu]
          simp
        rw [e]
        refine ⟨by simp, ?_, fun _ h => absurd rfl h⟩
        intro st1 out h; cases h
      | cons arg0 rest =>
        obtain ⟨a2, e, _⟩ := execute_command_register arg0 rest env st n hn hlt (by omega)
        rw [e]
        refine ⟨by simp, ?_, fun _ _ => ⟨_, _, rfl⟩⟩
        intro st1 out h; cases h
        simp only []; omega
    · have e : execute_command args true env st = .returned st [] := by
        unfold execute_command; simp only []
        rw [if_neg hneg, if_neg hz]
        simp only [Bool.not_true, Bool.false_eq_true, if_false]
        rw [if_neg hfull]
      rw [e]
      refine ⟨by simp, ?_, fun _ _ => ⟨_, _, rfl⟩⟩
      intro st1 out h; cases h; exact ⟨h0, h1⟩

/-- The bound `0 <= job_count <= MAX_JOBS` is preserved along every sequence of calls, and no
call makes an out-of-range array access. -/
theorem run_inv :
    ∀ (ops : List Op) (st : ShellState) (out : List Line),
      0 ≤ st.job_count → st.job_count ≤ (MAX_JOBS : Int) →
      run ops st out ≠ .index_fault
      ∧ (∀ st1 out1, run ops st out = .returned st1 out1 →
          0 ≤ st1.job_count ∧ st1.job_count ≤ (MAX_JOBS : Int))
      ∧ ((∀ op ∈ ops, op.in_parent = true) →
          ∃ st1 out1, run ops st out = .returned st1 out1) := by
  intro ops
  induction ops with
  | nil =>
    intro st out h0 h1
    refine ⟨by simp [run], ?_, fun _ => ⟨st, out, rfl⟩⟩
    intro st1 out1 h
    simp only [run] at h
    cases h; exact ⟨h0, h1⟩
  | cons op ops ih =>
    intro st out h0 h1
    cases op with
    | exec args background env =>
      obtain ⟨hnf, hinv, hret⟩ := execute_command_inv args background env st h0 h1
      cases hex : execute_command args background env st with
      | returned st1 o =>
        obtain ⟨g0, g1⟩ := hinv st1 o hex
        obtain ⟨i1, i2, i3⟩ := ih st1 (out ++ o) g0 g1
        simp only [run, hex]
        exact ⟨i1, i2, fun hp => i3 (fun op hop => hp op (List.mem_cons_of_mem _ hop))⟩
      | index_fault => exact absurd hex hnf
      | child_exec =>
        simp only [run, hex]
        refine ⟨by simp, (by intro _ _ h; cases h), ?_⟩
        intro hp
        have := hp _ (List.mem_cons_self _ _)
        simp only [Op.in_parent, Bool.and_eq_true, decide_eq_true_eq, Bool.not_eq_true',
          List.isEmpty_eq_false] at this
        obtain ⟨_, _, h⟩ := hret this.1 (by intro h; rw [h] at this; simp at this)
        rw [hex] at h; cases h
      | child_exit o =>
        simp only [run, hex]
        refine ⟨by simp, (by intro _ _ h; cases h), ?_⟩
        intro hp
        have := hp _ (List.mem_cons_self _ _)
        simp only [Op.in_parent, Bool.and_eq_true, decide_eq_true_eq, Bool.not_eq_true',
          List.isEmpty_eq_false] at this
        obtain ⟨_, _, h⟩ := hret this.1 (by intro h; rw [h] at this; simp at this)
        rw [hex] at h; cases h
      | null_arg =>
        simp only [run, hex]
        refine ⟨by simp, (by intro _ _ h; cases h), ?_⟩
        intro hp
        have := hp _ (List.mem_cons_self _ _)
        simp only [Op.in_parent, Bool.and_eq_true, decide_eq_true_eq, Bool.not_eq_true',
          List.isEmpty_eq_false] at this
        obtain ⟨_, _, h⟩ := hret this.1 (by intro h; rw [h] at this; simp at this)
        rw [hex] at h; cases h
    | check w =>
      obtain ⟨st1, h, hj, hc⟩ := check_background_jobs_spec w st h0 h1
      have hlen := survivors_reports_length w st.jobs 0 1
      have hl := jobs_length st h0 h1
      obtain ⟨i1, i2, i3⟩ := ih st1 (out ++ reports w 0 1 st.jobs) (by omega) (by omega)
      simp only [run, h]
      exact ⟨i1, i2, fun hp => i3 (fun op hop => hp op (List.mem_cons_of_mem _ hop))⟩

/-- C division by 1000 in terms of floor division: it rounds toward zero. -/
theorem tdiv_1000 (a : Int) :
    Int.tdiv a 1000 = if 0 ≤ a then a / 1000 else -((-a) / 1000) := by
  split
  · rename_i h
    exact Int.tdiv_eq_ediv h (by decide)
  · rename_i h
    have h2 : (0 : Int) ≤ -a := by omega
    have := Int.tdiv_eq_ediv h2 (show (0 : Int) ≤ 1000 by decide)
    rw [Int.neg_tdiv] at this
    omega

/-- A value that fits in a `long` is not changed by the reduction. -/
theorem wrap_long_of_fits (x : Int) (h : fits_long x) : wrap_long x = x := by
  obtain ⟨h1, h2⟩ := h
  unfold LONG_MIN at h1
  unfold LONG_MAX at h2
  unfold wrap_long
  omega

/-- Reducing an intermediate result does not change the reduced sum. -/
theorem wrap_long_add (x y : Int) : wrap_long (wrap_long x + y) = wrap_long (x + y) := by
  unfold wrap_long
  omega

/-- Reducing a factor does not change the reduced product by 1000. -/
theorem wrap_long_mul (x : Int) : wrap_long (wrap_long x * 1000) = wrap_long (x * 1000) := by
  unfold wrap_long
  omega

/-- With normalised microsecond fields and a millisecond value that fits in a `long`,
line 143 computes the exact value of its expression. -/
theorem elapsed_exact (start end_tv : timeval)
    (hs : start.normalized) (he : end_tv.normalized)
    (hfit : fits_long ((end_tv.tv_sec - start.tv_sec) * 1000
      + Int.tdiv (end_tv.tv_usec - start.tv_usec) 1000)) :
    elapsed start end_tv = (end_tv.tv_sec - start.tv_sec) * 1000
      + Int.tdiv (end_tv.tv_usec - start.tv_usec) 1000 := by
  obtain ⟨hs0, hs1⟩ := hs
  obtain ⟨he0, he1⟩ := he
  unfold elapsed
  have e1 : wrap_long (end_tv.tv_usec - start.tv_usec) = end_tv.tv_usec - start.tv_usec :=
    wrap_long_of_fits _ (by unfold fits_long LONG_MIN LONG_MAX; omega)
  rw [e1, wrap_long_mul, wrap_long_add]
  exact wrap_long_of_fits _ hfit

/-- With a millisecond value that fits in a `long`, lines 145 and 146 compute the exact
value of their expression. -/
theorem cpu_ms_exact (t : timeval)
    (hfit : fits_long (t.tv_sec * 1000 + Int.tdiv t.tv_usec 1000)) :
    wrap_long (wrap_long (t.tv_sec * 1000) + Int.tdiv t.tv_usec 1000)
      = t.tv_sec * 1000 + Int.tdiv t.tv_usec 1000 := by
  rw [wrap_long_add]
  exact wrap_long_of_fits _ hfit

/-! ## Tokenising and dispatch -/

/-- Splitting on spaces, one character at a time. -/
theorem splitOn_space_cons (c : Char) (s : CStr) :
    (c :: s).splitOn ' ' =
      if c = ' ' then [] :: s.splitOn ' ' else (s.splitOn ' ').modifyHead (List.cons c) := by
  unfold List.splitOn
  rw [List.splitOnP_cons]
  by_cases h : c = ' ' <;> simp [h]

/-- The first piece of a split is the text up to the first space; the other pieces come from the
text after that space. -/
theorem splitOn_space_structure (s : CStr) :
    s.splitOn ' ' = s.takeWhile (fun c => c != ' ') ::
      (match s.dropWhile (fun c => c != ' ') with
        | [] => []
        | _ :: t => t.splitOn ' ') := by
  induction s with
  | nil => simp
  | cons c s ih =>
    rw [splitOn_space_cons]
    by_cases h : c = ' '
    · subst h
      simp
    · rw [if_neg h, ih]
      simp [List.takeWhile_cons, List.dropWhile_cons, h, List.modifyHead]

/-- Leading spaces do not change the tokens of a line. -/
theorem line_tokens_dropWhile (s : CStr) :
    line_tokens (s.dropWhile (fun c => c == ' ')) = line_tokens s := by
  induction s with
  | nil => rfl
  | cons c s ih =>
    by_cases h : c = ' '
    · subst h
      rw [List.dropWhile_cons]
      simp only [beq_self_eq_true, if_true]
      rw [ih]
      unfold line_tokens
      rw [splitOn_space_cons]
      simp
    · rw [List.dropWhile_cons]
      simp [h]

/-- One `strtok` step returns NULL exactly when the text has no token left, and otherwise
returns the first token and a rest that holds the remaining tokens; the lengths account for the
delimiter consumed. -/
theorem line_tokens_strtok (s : CStr) :
    (strtok s = none ∧ line_tokens s = []) ∨
    (∃ token rest, strtok s = some (token, rest) ∧ token ≠ []
      ∧ line_tokens s = token :: line_tokens rest
      ∧ token.length + rest.length ≤ s.length
      ∧ (rest ≠ [] → token.length + 1 + rest.length ≤ s.length)) := by
  rw [← line_tokens_dropWhile s]
  unfold strtok
  simp only []
  have hlen : (s.dropWhile (fun c => c == ' ')).length ≤ s.length :=
    (List.dropWhile_sublist _).length_le
  cases hs1 : s.dropWhile (fun c => c == ' ') with
  | nil => left; exact ⟨by simp, rfl⟩
  | cons c s1 =>
    right
    rw [hs1] at hlen
    have hc : c ≠ ' ' := by
      have := List.head_dropWhile_not (fun c => c == ' ') s (by rw [hs1]; simp)
      simp only [hs1, List.head_cons] at this
      simpa using this
    refine ⟨(c :: s1).takeWhile (fun c => c != ' '),
      ((c :: s1).dropWhile (fun c => c != ' ')).drop 1, ?_, ?_, ?_, ?_, ?_⟩
    · rw [if_neg (List.cons_ne_nil c s1)]
    · simp [List.takeWhile_cons, hc]
    · unfold line_tokens
      rw [splitOn_space_structure (c :: s1)]
      rw [List.filter_cons]
      have : (!((c :: s1).takeWhile (fun c => c != ' ')).isEmpty) = true := by
        simp [List.takeWhile_cons, hc]
      rw [if_pos this]
      congr 1
      cases hd : (c :: s1).dropWhile (fun c => c != ' ') with
      | nil => simp
      | cons d t => simp
    · have h1 := List.takeWhile_append_dropWhile (fun c => c != ' ') (c :: s1)
      have h2 := congrArg List.length h1
      rw [List.length_append] at h2
      rw [List.length_drop]
      omega
    · intro hne
      have h1 := List.takeWhile_append_dropWhile (fun c => c != ' ') (c :: s1)
      have h2 := congrArg List.length h1
      rw [List.length_append] at h2
      rw [List.length_drop]
      have : 0 < ((c :: s1).dropWhile (fun c => c != ' ')).length - 1 := by
        have := List.length_pos.2 hne
        rwa [List.length_drop] at this
      omega

/-- The tokenising loop stores the first `room` space-separated tokens of the text. -/
theorem tokenize_loop_eq (room : Nat) :
    ∀ s : CStr, tokenize_loop room (strtok s) = (line_tokens s).take room := by
  induction room with
  | zero => intro s; simp [tokenize_loop]
  | succ room ih =>
    intro s
    rcases line_tokens_strtok s with ⟨h1, h2⟩ | ⟨token, rest, h1, _, h2, _⟩
    · rw [h1, h2]; simp [tokenize_loop]
    · rw [h1, h2]
      simp [tokenize_loop, ih]

/-- The string `fgets` leaves in the buffer has at most `MAX_INPUT - 1` characters. -/
theorem fgets_length (stream : List Char) (input : CStr) (h : fgets stream = some input) :
    input.length ≤ MAX_INPUT - 1 := by
  have htl : ∀ s : List Char, (take_line s).length ≤ s.length := by
    intro s
    induction s with
    | nil => simp [take_line]
    | cons c cs ih =>
      unfold take_line
      split
      · simp
      · simp only [List.length_cons]; omega
  unfold fgets at h
  split at h
  · cases h
  · cases h
    have h1 := (List.takeWhile_sublist (fun c => c != Char.ofNat 0)
      (l := take_line (stream.take (MAX_INPUT - 1)))).length_le
    have h2 := htl (stream.take (MAX_INPUT - 1))
    have h3 := List.length_take_le (MAX_INPUT - 1) stream
    omega

/-- The line in the buffer is no longer than the buffer's string. -/
theorem line_of_length (input : CStr) : (line_of input).length ≤ input.length :=
  (List.takeWhile_sublist _).length_le

/-- When a turn of the loop calls `execute_command`, `fgets` stored a line, the background flag
is set exactly when the stored tokens are at least two and end in `&`, and the argument vector
is the stored tokens, without the final `&` when the flag is set. -/
theorem interactive_shell_line_execute (stream : List Char) (args : List CStr)
    (background : Bool) (h : interactive_shell_line stream = .execute args background) :
    ∃ input toks, fgets stream = some input
      ∧ toks = (line_tokens (line_of input)).take (MAX_ARGS - 1)
      ∧ (background = true → 1 < toks.length ∧ toks.getLast? = some "&".toList
          ∧ args = toks.dropLast)
      ∧ (background = false → ¬ (1 < toks.length ∧ toks.getLast? = some "&".toList)
          ∧ args = toks)
      ∧ toks ≠ [] := by
  unfold interactive_shell_line at h
  cases hbuf : fgets stream with
  | none => rw [hbuf] at h; cases h
  | some input =>
    rw [hbuf] at h
    simp only [tokenize_loop_eq] at h
    refine ⟨input, _, rfl, rfl, ?_⟩
    unfold line_of
    have hl : ∀ l : List CStr, l[l.length - 1]? = l.getLast? := by
      intro l; rw [List.getLast?_eq_getElem?]
    split_ifs at h with h1 h2 h3 h4 h5 h6 h7
    · simp only [decide_eq_true_eq, hl] at h7
      cases h
      refine ⟨fun _ => ⟨h7.1, h7.2, (List.dropLast_eq_take _).symm⟩, fun hb => (by cases hb), ?_⟩
      intro e; exact h2 (congrArg List.length e)
    · simp only [decide_eq_true_eq, hl] at h7
      cases h
      refine ⟨fun hb => (by cases hb), fun _ => ⟨h7, rfl⟩, ?_⟩
      intro e; exact h2 (congrArg List.length e)

/-- A line whose stored tokens are not a built-in command is passed to
`execute_command`: in the background without its last token when it has at least two
tokens and ends in `&`, otherwise in the foreground as it is. -/
theorem interactive_shell_line_launch (stream : List Char) (input : CStr) (toks : List CStr)
    (hbuf : fgets stream = some input)
    (htoks : toks = (line_tokens (line_of input)).take (MAX_ARGS - 1))
    (hne : toks ≠ []) (hnb : is_builtin toks = false) :
    interactive_shell_line stream =
      if 1 < toks.length ∧ toks.getLast? = some "&".toList then .execute toks.dropLast true
      else .execute toks false := by
  have hline : (line_of input).length ≠ 0 := by
    intro h0
    have : line_of input = [] := List.eq_nil_of_length_eq_zero h0
    rw [this] at htoks
    exact hne (by rw [htoks]; rfl)
  have hlen : toks.length ≠ 0 := fun h0 => hne (List.eq_nil_of_length_eq_zero h0)
  have hl : ∀ l : List CStr, l[l.length - 1]? = l.getLast? := by
    intro l; rw [List.getLast?_eq_getElem?]
  have hh : toks[0]? = toks.head? := (List.head?_eq_getElem? toks).symm
  have hexit : ¬ toks.head? = some "exit".toList := by
    intro h; rw [is_builtin, h] at hnb; simp at hnb
  have hcd : ¬ toks.head? = some "cd".toList := by
    intro h; rw [is_builtin, h] at hnb; simp at hnb
  have hjobs : ¬ toks.head? = some "jobs".toList := by
    intro h; rw [is_builtin, h] at hnb; simp at hnb
  have hset : ¬ (toks.head? = some "set".toList ∧ toks.length ≥ 4 ∧
      toks[1]? = some "prompt".toList ∧ toks[2]? = some "=".toList) := by
    intro h
    rw [is_builtin, h.1, h.2.2.1, h.2.2.2] at hnb
    simp [h.2.1] at hnb
  unfold interactive_shell_line
  rw [hbuf]
  simp only [tokenize_loop_eq]
  unfold line_of at htoks hline
  rw [← htoks]
  rw [if_neg hline, if_neg hlen, hh, if_neg hexit, if_neg hcd, if_neg hset, if_neg hjobs]
  simp only [decide_eq_true_eq, hl, gt_iff_lt, List.dropLast_eq_take]

/-! ## The Windows command line -/

/-- The tokens of a line, each followed by one space, take at most one character more than the
line. -/
theorem cmdline_cost_line_tokens :
    ∀ (n : Nat) (s : CStr), s.length ≤ n → cmdline_cost (line_tokens s) ≤ s.length + 1 := by
  intro n
  induction n with
  | zero =>
    intro s hs
    have : s = [] := List.eq_nil_of_length_eq_zero (by omega)
    subst this
    decide
  | succ n ih =>
    intro s hs
    rcases line_tokens_strtok s with ⟨_, h2⟩ | ⟨token, rest, _, hne, h2, h3, h4⟩
    · rw [h2]; simp [cmdline_cost]
    · rw [h2]
      have hpos : 0 < token.length := List.length_pos.2 hne
      by_cases hr : rest = []
      · subst hr
        have : cmdline_cost (token :: line_tokens []) = token.length + 1 := by
          simp [cmdline_cost, line_tokens]
        rw [this]
        simp at h3
        omega
      · have h5 := h4 hr
        have := ih rest (by omega)
        have e : cmdline_cost (token :: line_tokens rest)
            = token.length + 1 + cmdline_cost (line_tokens rest) := by
          simp [cmdline_cost]
        rw [e]
        omega

/-- Dropping arguments does not increase the number of characters appended. -/
theorem cmdline_cost_sublist (l1 l2 : List CStr) (h : l1.Sublist l2) :
    cmdline_cost l1 ≤ cmdline_cost l2 := by
  unfold cmdline_cost
  exact List.Sublist.sum_le_sum (h.map _) (fun a _ => Nat.zero_le a)

/-- The Windows loop succeeds whenever the assembled text and its terminator fit in `MAX_INPUT`
bytes. -/
theorem win_cmdline_loop_fits :
    ∀ (args : List CStr) (cmdline : CStr),
      cmdline.length + cmdline_cost args + 1 ≤ MAX_INPUT →
      ∃ c, win_cmdline_loop args cmdline = some c
        ∧ c.length = cmdline.length + cmdline_cost args := by
  intro args
  induction args with
  | nil => intro cmdline _; exact ⟨cmdline, rfl, by simp [cmdline_cost]⟩
  | cons a args ih =>
    intro cmdline h
    have e : cmdline_cost (a :: args) = a.length + 1 + cmdline_cost args := by
      simp [cmdline_cost]
    rw [e] at h
    obtain ⟨c, hc, hl⟩ := ih (cmdline ++ a ++ [' ']) (by simp; omega)
    refine ⟨c, ?_, ?_⟩
    · unfold win_cmdline_loop strcat
      rw [if_pos (by omega)]
      simp only []
      rw [if_pos (by simp; omega)]
      exact hc
    · rw [hl, e]; simp; omega

/-- For every buffer whose line has at most `MAX_INPUT - 2` characters, the Windows
command line of the launched command fits in `cmdline` with its terminator. -/
theorem win_cmdline_fits (stream : List Char) (input : CStr) (args : List CStr)
    (background : Bool) (hbuf : fgets stream = some input)
    (hlen : (line_of input).length + 2 ≤ MAX_INPUT)
    (h : interactive_shell_line stream = .execute args background) :
    ∃ c, win_cmdline args = some c ∧ c.length + 1 ≤ MAX_INPUT := by
  obtain ⟨input2, toks, hbuf2, htoks, hbg, hfg, _⟩ :=
    interactive_shell_line_execute stream args background h
  rw [hbuf] at hbuf2
  cases hbuf2
  have h1 := cmdline_cost_line_tokens _ (line_of input) (Nat.le_refl _)
  have h2 := cmdline_cost_sublist _ _
    (List.take_sublist (MAX_ARGS - 1) (line_tokens (line_of input)))
  rw [← htoks] at h2
  have h3 : cmdline_cost args ≤ cmdline_cost toks := by
    cases background with
    | true =>
      obtain ⟨_, _, e⟩ := hbg rfl
      rw [e]
      exact cmdline_cost_sublist _ _ (List.dropLast_sublist _)
    | false =>
      obtain ⟨_, e⟩ := hfg rfl
      rw [e]
  obtain ⟨c, hc, hl⟩ := win_cmdline_loop_fits args [] (by simp; omega)
  refine ⟨c, hc, ?_⟩
  rw [hl]; simp; omega

/-- An argument vector that `interactive_shell` launches in the background is non-empty
and its first argument has at most `MAX_INPUT - 1` characters. -/
theorem background_argv_head (stream : List Char) (argv : List CStr)
    (hcall : interactive_shell_line stream = .execute argv true) :
    ∃ arg0 rest, argv = arg0 :: rest ∧ arg0.length ≤ MAX_INPUT - 1 := by
  obtain ⟨input, toks, hbuf, htoks, hbg, _, _⟩ :=
    interactive_shell_line_execute stream argv true hcall
  obtain ⟨hlen, _, e⟩ := hbg rfl
  have h1 := cmdline_cost_line_tokens _ (line_of input) (Nat.le_refl _)
  have h2 := cmdline_cost_sublist _ _
    (List.take_sublist (MAX_ARGS - 1) (line_tokens (line_of input)))
  rw [← htoks] at h2
  have h3 := cmdline_cost_sublist _ _ (List.dropLast_sublist toks)
  rw [← e] at h3
  have h4 := fgets_length stream input hbuf
  have h5 := line_of_length input
  cases argv with
  | nil =>
    have := congrArg List.length e
    rw [List.length_dropLast] at this
    simp at this
    omega
  | cons arg0 rest =>
    refine ⟨arg0, rest, rfl, ?_⟩
    have e2 : cmdline_cost (arg0 :: rest) = arg0.length + 1 + cmdline_cost rest := by
      simp [cmdline_cost]
    rw [e2] at h3
    have : MAX_INPUT = 128 := rfl
    omega

/-! ## Claims about check_background_jobs -/

/-- C1. For every job table with `0 <= job_count <= MAX_JOBS` and every outcome of the per-job
`waitpid(.., WNOHANG)` calls (`waitpid k pid` is the result of the `k`-th call of the poll), one
call of `check_background_jobs` succeeds and leaves in the table exactly the jobs whose status
check did not return a positive value (still running, or the check failed), in their original
relative order; the `k`-th check is the one made for the job at position `k`; and `job_count`
equals the number of jobs kept. -/
theorem C1_check_background_jobs_keeps_unterminated (waitpid : Nat → Int → Int)
    (st : ShellState) (h0 : 0 ≤ st.job_count) (h1 : st.job_count ≤ (MAX_JOBS : Int)) :
    ∃ st1 out, check_background_jobs waitpid st = some (st1, out)
      ∧ st1.jobs = (st.jobs.enum.filter
            (fun p => decide (¬ waitpid p.1 p.2.pid > 0))).map Prod.snd
      ∧ st1.job_count = (st1.jobs.length : Int) := by
  obtain ⟨st1, h, hj, hc⟩ := check_background_jobs_spec waitpid st h0 h1
  refine ⟨st1, _, h, ?_, ?_⟩
  · rw [hj, survivors_eq_filter]; rfl
  · rw [hc, hj]

/-- C1, worked example: in the table `[A, B, C]` only `B` has terminated; the poll leaves `[A,
C]` and `job_count = 2`. -/
theorem C1_witness :
    ∃ st1 out, check_background_jobs (fun _ pid => if pid = 200 then 200 else 0) tableABC
        = some (st1, out) ∧ st1.jobs = [jobA, jobC] ∧ st1.job_count = 2 := by
  obtain ⟨st1, out, h, hj, hc⟩ := C1_check_background_jobs_keeps_unterminated
    (fun _ pid => if pid = 200 then 200 else 0) tableABC (by decide) (by decide)
  have e : st1.jobs = [jobA, jobC] := by rw [hj]; decide
  exact ⟨st1, out, h, e, by rw [hc, e]; rfl⟩

/-- C2. One call of `check_background_jobs` prints exactly one Completed line per reaped job, in
table order, and the slot in the line of a reaped job is its one-based position at the start of
the poll minus the number of jobs at earlier positions reaped in the same poll, that is, the
position it held immediately before its own removal. -/
theorem C2_completed_slot_is_position_before_removal (waitpid : Nat → Int → Int)
    (st : ShellState) (h0 : 0 ≤ st.job_count) (h1 : st.job_count ≤ (MAX_JOBS : Int)) :
    ∃ st1, check_background_jobs waitpid st
      = some (st1, expected_completed waitpid st.jobs) := by
  obtain ⟨st1, h, _, _⟩ := check_background_jobs_spec waitpid st h0 h1
  refine ⟨st1, ?_⟩
  rw [h]
  have := reports_eq waitpid st.jobs []
  simp at this
  rw [this]
  rfl

/-- C2, worked example: in the table `[A, B, C]` the jobs `A` and `C` have terminated; the poll
prints slot 1 for `A` and slot 2 for `C`. -/
theorem C2_witness :
    ∃ st1, check_background_jobs (fun _ pid => if pid = 200 then 0 else 1) tableABC
      = some (st1, [Line.completed 1 100, Line.completed 2 300]) := by
  obtain ⟨st1, h⟩ := C2_completed_slot_is_position_before_removal
    (fun _ pid => if pid = 200 then 0 else 1) tableABC (by decide) (by decide)
  have e : expected_completed (fun _ pid => if pid = 200 then 0 else 1) tableABC.jobs
      = [Line.completed 1 100, Line.completed 2 300] := by decide
  rw [e] at h
  exact ⟨st1, h⟩

/-- C5. For every table whose tracked entries have pairwise distinct process ids, one call of
`check_background_jobs` prints only Completed lines, decreases `job_count` by exactly their
number, leaves no reported process id in the table, and no later sequence of
`check_background_jobs` calls (with no registration in between) reports such a process id again.
-/
theorem C5_reaping_is_idempotent (waitpid : Nat → Int → Int)
    (later : List (Nat → Int → Int)) (st : ShellState)
    (h0 : 0 ≤ st.job_count) (h1 : st.job_count ≤ (MAX_JOBS : Int))
    (hdistinct : (st.jobs.map Job.pid).Nodup) :
    ∃ st1 out1, check_background_jobs waitpid st = some (st1, out1)
      ∧ st1.job_count = st.job_count - (out1.length : Int)
      ∧ (∀ l ∈ out1, ∃ s p, l = Line.completed s p)
      ∧ (∀ s p, Line.completed s p ∈ out1 → p ∉ st1.jobs.map Job.pid)
      ∧ ∃ st2 out2, poll_many later st1 = some (st2, out2)
          ∧ ∀ s p, Line.completed s p ∈ out1 → ∀ s2, Line.completed s2 p ∉ out2 := by
  obtain ⟨st1, h, hj, hc⟩ := check_background_jobs_spec waitpid st h0 h1
  have hlen := survivors_reports_length waitpid st.jobs 0 1
  have hl := jobs_length st h0 h1
  have hns : ∀ s p, Line.completed s p ∈ reports waitpid 0 1 st.jobs →
      p ∉ st1.jobs.map Job.pid := by
    intro s p hp
    rw [hj]
    exact reports_not_survivor waitpid _ _ _ _ _ hdistinct hp
  obtain ⟨st2, out2, h2, hout⟩ := poll_many_spec later st1 (by omega) (by omega)
  refine ⟨st1, _, h, by omega, ?_, hns, st2, out2, h2, ?_⟩
  · intro l hl
    obtain ⟨s, j, _, e⟩ := reports_pid_mem waitpid _ _ _ _ hl
    exact ⟨s, j.pid, e⟩
  · intro s p hp s2 hp2
    obtain ⟨s3, j, hj3, e⟩ := hout _ hp2
    cases e
    exact hns s _ hp (List.mem_map.2 ⟨j, hj3, rfl⟩)

/-- C5, worked example: the table `[A, B, C]` has distinct process ids; `B` is reaped by the
first poll and is not reported by two later polls in which every check reports termination. -/
theorem C5_witness :
    (tableABC.jobs.map Job.pid).Nodup
    ∧ ∃ st1 out1, check_background_jobs (fun _ pid => if pid = 200 then 200 else 0) tableABC
          = some (st1, out1)
      ∧ st1.job_count = tableABC.job_count - (out1.length : Int)
      ∧ (∀ l ∈ out1, ∃ s p, l = Line.completed s p)
      ∧ (∀ s p, Line.completed s p ∈ out1 → p ∉ st1.jobs.map Job.pid)
      ∧ ∃ st2 out2, poll_many [fun _ _ => 1, fun _ _ => 1] st1 = some (st2, out2)
          ∧ ∀ s p, Line.completed s p ∈ out1 → ∀ s2, Line.completed s2 p ∉ out2 :=
  ⟨by decide, C5_reaping_is_idempotent (fun _ pid => if pid = 200 then 200 else 0)
    [fun _ _ => 1, fun _ _ => 1] tableABC (by decide) (by decide) (by decide)⟩

/-! ## Claims about execute_command -/

/-- C3 fails as stated: with ten tracked jobs, a background launch whose `fork` returns 4242
makes `execute_command` return with the globals unchanged and nothing printed; process 4242 is
in no slot and no failure is reported. -/
theorem C3_counterexample :
    tableFull.job_count = 10
    ∧ execute_command ["sleep".toList, "5".toList] true (env_bg 4242) tableFull
        = .returned tableFull []
    ∧ (4242 : Int) ∉ tableFull.jobs.map Job.pid := by
  decide

/-- C3, as the code behaves: when `job_count` equals `MAX_JOBS`, for every successful background
spawn `execute_command` returns with the table and `job_count` unchanged and prints nothing; the
new process is not tracked and no failure is reported. -/
theorem C3_full_table_drops_silently (args : List CStr) (env : SysCalls) (st : ShellState)
    (hfull : st.job_count = (MAX_JOBS : Int)) (hpid : 0 < env.fork_result) :
    execute_command args true env st = .returned st [] := by
  unfold execute_command
  simp only []
  rw [if_neg (by omega), if_neg (by omega)]
  simp only [Bool.not_true, Bool.false_eq_true, if_false]
  rw [if_neg (by omega)]

/-- C3, worked example of the silent drop at a full table. -/
theorem C3_witness :
    execute_command ["sleep".toList, "5".toList] true (env_bg 4242) tableFull
      = .returned tableFull [] :=
  C3_full_table_drops_silently _ (env_bg 4242) tableFull (by decide) (by decide)

/-- C4. Starting from the empty table, after every sequence of `execute_command` calls
(foreground or background, spawn succeeding or failing) and `check_background_jobs` calls, no
access to `background_jobs` is outside `[0, MAX_JOBS)`, `0 <= job_count <= MAX_JOBS` holds in
the state reached, and the sequence does run to its end when every call is made by the shell
process with a non-empty argument vector. -/
theorem C4_capacity_invariant (ops : List Op) :
    run ops ShellState.init [] ≠ .index_fault
    ∧ (∀ st out, run ops ShellState.init [] = .returned st out →
        0 ≤ st.job_count ∧ st.job_count ≤ (MAX_JOBS : Int))
    ∧ ((∀ op ∈ ops, op.in_parent = true) →
        ∃ st out, run ops ShellState.init [] = .returned st out) :=
  run_inv ops ShellState.init [] (by decide) (by decide)

/-- C4, worked example: eleven background launches followed by a poll run to the end and leave
`job_count` within bounds. -/
theorem C4_witness :
    ∃ st out, run ops_overfill ShellState.init [] = .returned st out
      ∧ 0 ≤ st.job_count ∧ st.job_count ≤ (MAX_JOBS : Int) := by
  obtain ⟨st, out, h⟩ := (C4_capacity_invariant ops_overfill).2.2 (by decide)
  exact ⟨st, out, h, (C4_capacity_invariant ops_overfill).2.1 st out h⟩

/-- C6. For every table with `job_count = n < MAX_JOBS` and every successful background spawn
returning process id `p` for an argument vector `argv` that the program passes with the
background flag set (`interactive_shell` is the only caller that sets it; `main` launches in the
foreground), `execute_command` appends one entry with pid `p` and label `argv[0]` at index `n`,
leaves every other slot unchanged, sets `job_count` to `n + 1` and prints `[n+1] p`. -/
theorem C6_background_registration_appends (stream : List Char) (argv : List CStr)
    (env : SysCalls) (st : ShellState) (n : Nat)
    (hcall : interactive_shell_line stream = .execute argv true)
    (hn : st.job_count = (n : Int)) (hlt : n < MAX_JOBS) (hpid : 0 < env.fork_result) :
    ∃ arg0 rest st1, argv = arg0 :: rest
      ∧ execute_command argv true env st
          = .returned st1 [Line.registered ((n : Int) + 1) env.fork_result]
      ∧ st1.job_count = (n : Int) + 1
      ∧ st1.background_jobs.val[n]? = some ⟨env.fork_result, arg0⟩
      ∧ (∀ k : Nat, k ≠ n → st1.background_jobs.val[k]? = st.background_jobs.val[k]?)
      ∧ st1.jobs = st.jobs ++ [⟨env.fork_result, arg0⟩] := by
  obtain ⟨arg0, rest, e, hshort⟩ := background_argv_head stream argv hcall
  obtain ⟨st1, h1, h2, _, h4, h5, h6⟩ :=
    execute_command_register_frame arg0 rest env st n hn hlt hpid
  refine ⟨arg0, rest, st1, e, by rw [e]; exact h1, h2, h6 hshort, h4, ?_⟩
  rw [h5, List.take_of_length_le hshort]

/-- C6, worked example: the line `sleep 5 &` with the table `[A, B, C]` appends the entry for
process 4242 with label `sleep` in slot 4. -/
theorem C6_witness :
    ∃ arg0 rest st1, ["sleep".toList, "5".toList] = arg0 :: rest
      ∧ execute_command ["sleep".toList, "5".toList] true (env_bg 4242) tableABC
          = .returned st1 [Line.registered 4 4242]
      ∧ st1.job_count = 4
      ∧ st1.background_jobs.val[3]? = some ⟨4242, arg0⟩
      ∧ (∀ k : Nat, k ≠ 3 → st1.background_jobs.val[k]? = tableABC.background_jobs.val[k]?)
      ∧ st1.jobs = tableABC.jobs ++ [⟨4242, arg0⟩] :=
  C6_background_registration_appends "sleep 5 &\n".toList ["sleep".toList, "5".toList]
    (env_bg 4242) tableABC 3 (by decide) (by decide) (by decide) (by decide)

/-- C7 fails as stated, in two ways. From 0 s 999999 us to 1 s 0 us one microsecond elapses,
which is 0 ms rounded down, but the computed value is 1. From 0 s to 9223372036854776 s the
product by 1000 exceeds `LONG_MAX` and the computed value is -9223372036854775616. -/
theorem C7_counterexample :
    ((⟨0, 999999⟩ : timeval).normalized ∧ (⟨1, 0⟩ : timeval).normalized
      ∧ (⟨0, 999999⟩ : timeval).usec_total ≤ (⟨1, 0⟩ : timeval).usec_total
      ∧ elapsed ⟨0, 999999⟩ ⟨1, 0⟩ = 1
      ∧ ((⟨1, 0⟩ : timeval).usec_total - (⟨0, 999999⟩ : timeval).usec_total) / 1000 = 0)
    ∧ ((⟨0, 0⟩ : timeval).normalized ∧ (⟨9223372036854776, 0⟩ : timeval).normalized
      ∧ (⟨0, 0⟩ : timeval).usec_total ≤ (⟨9223372036854776, 0⟩ : timeval).usec_total
      ∧ elapsed ⟨0, 0⟩ ⟨9223372036854776, 0⟩ = -9223372036854775616
      ∧ ((⟨9223372036854776, 0⟩ : timeval).usec_total - (⟨0, 0⟩ : timeval).usec_total) / 1000
          = 9223372036854776000) := by
  decide

/-- C7, as the code behaves: for timestamps with microsecond fields in `[0, 1000000)`, `end >=
start` and a difference below `LONG_MAX` milliseconds (64-bit `long`), the computed elapsed
value is the microsecond difference divided by 1000, rounded down when `end.usec >= start.usec`
and rounded up when `end.usec < start.usec`; in both cases it lies between the rounded-down
quotient and that quotient plus one. -/
theorem C7_elapsed_rounding (start end_tv : timeval)
    (hs : start.normalized) (he : end_tv.normalized)
    (hle : start.usec_total ≤ end_tv.usec_total)
    (hfit : (end_tv.usec_total - start.usec_total) / 1000 < LONG_MAX) :
    (start.tv_usec ≤ end_tv.tv_usec →
      elapsed start end_tv = (end_tv.usec_total - start.usec_total) / 1000)
    ∧ (end_tv.tv_usec < start.tv_usec →
      elapsed start end_tv = (end_tv.usec_total - start.usec_total + 999) / 1000)
    ∧ (end_tv.usec_total - start.usec_total) / 1000 ≤ elapsed start end_tv
    ∧ elapsed start end_tv ≤ (end_tv.usec_total - start.usec_total) / 1000 + 1 := by
  have hs2 := hs
  have he2 := he
  obtain ⟨hs0, hs1⟩ := hs2
  obtain ⟨he0, he1⟩ := he2
  unfold timeval.usec_total at hle hfit ⊢
  unfold LONG_MAX at hfit
  have hex := elapsed_exact start end_tv hs he (by
    unfold fits_long LONG_MIN LONG_MAX
    rw [tdiv_1000]
    split <;> omega)
  rw [hex, tdiv_1000]
  split <;> omega

/-- C7, worked examples: one interval with `end.usec < start.usec` (rounded up) and one with
`end.usec >= start.usec` (rounded down). -/
theorem C7_witness :
    elapsed ⟨10, 250000⟩ ⟨12, 100999⟩ = 1851 ∧ elapsed ⟨10, 250000⟩ ⟨12, 250999⟩ = 2000 := by
  have h1 := C7_elapsed_rounding ⟨10, 250000⟩ ⟨12, 100999⟩ (by decide) (by decide)
    (by decide) (by decide)
  have h2 := C7_elapsed_rounding ⟨10, 250000⟩ ⟨12, 250999⟩ (by decide) (by decide)
    (by decide) (by decide)
  exact ⟨(h1.2.1 (by decide)).trans (by decide), (h2.1 (by decide)).trans (by decide)⟩

/-- C8 fails as stated: with clock readings 0 s and 9223372036854776 s (`end >= start`,
microsecond fields 0) and a usage record of 9223372036854776 s of user and of system time, the
three products by 1000 exceed `LONG_MAX` and the statistics block shows -9223372036854775616 for
the user, system and elapsed values. -/
theorem C8_counterexample :
    env_huge.start.normalized ∧ env_huge.end_tv.normalized
    ∧ env_huge.start.usec_total ≤ env_huge.end_tv.usec_total
    ∧ (0 ≤ env_huge.usage.ru_utime.tv_sec ∧ 0 ≤ env_huge.usage.ru_utime.tv_usec)
    ∧ (0 ≤ env_huge.usage.ru_stime.tv_sec ∧ 0 ≤ env_huge.usage.ru_stime.tv_usec)
    ∧ execute_command ["echo".toList, "hi".toList] false env_huge ShellState.init
        = .returned ShellState.init [Line.statistics (-9223372036854775616)
            (-9223372036854775616) (-9223372036854775616) 0 0] := by
  decide

/-- C8, as the code behaves: a foreground run whose spawn succeeds prints one statistics block
and returns with the globals unchanged; when `end >= start` with microsecond fields in `[0,
1000000)` and a difference below `LONG_MAX` milliseconds (64-bit `long`), the elapsed value
printed is non-negative (also when `end.usec < start.usec`); and when the seconds and
microseconds fields of a usage time are non-negative and its millisecond value `sec * 1000 +
usec / 1000` is at most `LONG_MAX`, the user or system value printed is non-negative. -/
theorem C8_statistics_nonnegative (args : List CStr) (env : SysCalls) (st : ShellState)
    (hpid : 0 < env.fork_result)
    (hs : env.start.normalized) (he : env.end_tv.normalized)
    (hle : env.start.usec_total ≤ env.end_tv.usec_total)
    (hfit : (env.end_tv.usec_total - env.start.usec_total) / 1000 < LONG_MAX)
    (hu : 0 ≤ env.usage.ru_utime.tv_sec ∧ 0 ≤ env.usage.ru_utime.tv_usec)
    (hufit : env.usage.ru_utime.tv_sec * 1000 + env.usage.ru_utime.tv_usec / 1000 ≤ LONG_MAX)
    (hk : 0 ≤ env.usage.ru_stime.tv_sec ∧ 0 ≤ env.usage.ru_stime.tv_usec)
    (hkfit : env.usage.ru_stime.tv_sec * 1000 + env.usage.ru_stime.tv_usec / 1000 ≤ LONG_MAX) :
    execute_command args false env st
      = .returned st [Line.statistics (user env.usage) (sys env.usage)
          (elapsed env.start env.end_tv) env.usage.ru_minflt env.usage.ru_majflt]
    ∧ 0 ≤ user env.usage ∧ 0 ≤ sys env.usage ∧ 0 ≤ elapsed env.start env.end_tv := by
  unfold LONG_MAX at hfit hufit hkfit
  refine ⟨?_, ?_, ?_, ?_⟩
  · unfold execute_command
    simp only []
    rw [if_neg (by omega), if_neg (by omega)]
    simp
  · unfold user
    rw [cpu_ms_exact _ (by
      unfold fits_long LONG_MIN LONG_MAX; rw [tdiv_1000]; split <;> omega)]
    rw [tdiv_1000]; split <;> omega
  · unfold sys
    rw [cpu_ms_exact _ (by
      unfold fits_long LONG_MIN LONG_MAX; rw [tdiv_1000]; split <;> omega)]
    rw [tdiv_1000]; split <;> omega
  · have hs2 := hs
    have he2 := he
    obtain ⟨hs0, hs1⟩ := hs2
    obtain ⟨he0, he1⟩ := he2
    unfold timeval.usec_total at hle hfit
    rw [elapsed_exact _ _ hs he (by
      unfold fits_long LONG_MIN LONG_MAX; rw [tdiv_1000]; split <;> omega)]
    rw [tdiv_1000]
    split <;> omega

/-- C8, worked example with `end.usec < start.usec`: the block shows 12 ms user, 3 ms system and
200 ms elapsed. -/
theorem C8_witness :
    execute_command ["echo".toList, "hi".toList] false env_fg ShellState.init
      = .returned ShellState.init [Line.statistics 12 3 200 7 0]
    ∧ (0 : Int) ≤ 12 ∧ (0 : Int) ≤ 3 ∧ (0 : Int) ≤ 200 :=
  C8_statistics_nonnegative ["echo".toList, "hi".toList] env_fg ShellState.init
    (by decide) (by decide) (by decide) (by decide) (by decide) (by decide) (by decide)
    (by decide) (by decide)

/-! ## Claims about interactive_shell -/

set_option maxRecDepth 100000 in
/-- C9 fails as stated, in three ways. For the line `&` the launcher is called with the argument
vector `[&]` and the background flag clear. For a line of 31 tokens `a` followed by `&` the
launcher is called with the 31 tokens `a` and the background flag clear. For the 133-character
line `sleep x...x &`, `fgets` stores the first 127 characters only and the launcher is called
with `sleep` and 121 characters `x`, the background flag clear. -/
theorem C9_counterexample :
    (fgets "&\n".toList = some "&\n".toList
      ∧ (line_tokens (line_of "&\n".toList)).getLast? = some "&".toList
      ∧ is_builtin (line_tokens (line_of "&\n".toList)) = false
      ∧ interactive_shell_line "&\n".toList = .execute ["&".toList] false)
    ∧ ((line31a_amp ++ ['\n']).length ≤ MAX_INPUT - 1
      ∧ fgets (line31a_amp ++ ['\n']) = some (line31a_amp ++ ['\n'])
      ∧ (line_tokens (line_of (line31a_amp ++ ['\n']))).getLast? = some "&".toList
      ∧ is_builtin (line_tokens (line_of (line31a_amp ++ ['\n']))) = false
      ∧ interactive_shell_line (line31a_amp ++ ['\n'])
          = .execute (List.replicate 31 "a".toList) false)
    ∧ ((line_tokens line_long_amp).getLast? = some "&".toList
      ∧ is_builtin (line_tokens line_long_amp) = false
      ∧ interactive_shell_line (line_long_amp ++ ['\n'])
          = .execute ["sleep".toList, List.replicate 121 'x'] false) := by
  decide

/-- C9, as the code behaves: for every input line as `fgets` stores it (at most `MAX_INPUT - 1`
characters) that has at most `MAX_ARGS - 1` space-separated tokens, is not a built-in command
and whose last token is `&`: when the line has at least two tokens, `execute_command` is called
with the background flag set and with the non-empty argument vector made of the other tokens,
unchanged and in order; when `&` is the only token, `execute_command` is called with the
argument vector `[&]` and the background flag clear. -/
theorem C9_trailing_ampersand_stripped (stream : List Char) (input : CStr)
    (toks : List CStr)
    (hbuf : fgets stream = some input)
    (htoks : toks = line_tokens (line_of input))
    (hmax : toks.length ≤ MAX_ARGS - 1)
    (hlast : toks.getLast? = some "&".toList)
    (hnb : is_builtin toks = false) :
    (2 ≤ toks.length →
      interactive_shell_line stream = .execute toks.dropLast true
      ∧ toks.dropLast ≠ []
      ∧ toks = toks.dropLast ++ ["&".toList])
    ∧ (toks.length < 2 →
      toks = ["&".toList]
      ∧ interactive_shell_line stream = .execute ["&".toList] false) := by
  have hne : toks ≠ [] := by
    intro e; rw [e] at hlast; cases hlast
  have hrun := interactive_shell_line_launch stream input toks hbuf
    (by rw [← htoks, List.take_of_length_le hmax]) hne hnb
  have hsplit : toks = toks.dropLast ++ ["&".toList] := by
    have := List.dropLast_append_getLast? "&".toList (by simpa using hlast)
    exact this.symm
  constructor
  · intro h2
    rw [hrun, if_pos ⟨by omega, hlast⟩]
    refine ⟨rfl, ?_, hsplit⟩
    intro e2
    have := congrArg List.length hsplit
    rw [e2] at this
    simp at this
    omega
  · intro h1
    have hd : toks.dropLast = [] := by
      apply List.eq_nil_of_length_eq_zero
      rw [List.length_dropLast]; omega
    have e1 : toks = ["&".toList] := by rw [hsplit, hd]; rfl
    refine ⟨e1, ?_⟩
    rw [hrun, if_neg (by omega), e1]

/-- C9, worked example: the line `sleep 5 &` launches `[sleep, 5]` in the background. -/
theorem C9_witness :
    interactive_shell_line "sleep 5 &\n".toList
      = .execute ["sleep".toList, "5".toList] true := by
  have h := (C9_trailing_ampersand_stripped "sleep 5 &\n".toList "sleep 5 &\n".toList
    ["sleep".toList, "5".toList, "&".toList] (by decide) (by decide) (by decide) (by decide)
    (by decide)).1 (by decide)
  exact h.1

set_option maxRecDepth 100000 in
/-- C10 at the input line of 127 characters `a`: `fgets` stores them, `interactive_shell` passes
the single argument of 127 characters with the background flag clear, and the Windows loop
appends 127 characters and one space, 128 characters that need 129 bytes with the terminator, so
the second `strcat` writes past the end of the 128-byte `cmdline` buffer. -/
theorem C10_cmdline_overruns_buffer :
    (List.replicate 127 'a').length = MAX_INPUT - 1
    ∧ fgets (List.replicate 127 'a' ++ ['\n']) = some (List.replicate 127 'a')
    ∧ interactive_shell_line (List.replicate 127 'a' ++ ['\n'])
        = .execute [List.replicate 127 'a'] false
    ∧ win_cmdline [List.replicate 127 'a'] = none
    ∧ (List.replicate 127 'a' ++ [' ']).length + 1 = MAX_INPUT + 1 := by
  decide

end Shell
